import Mathlib

/-!
Verification development for the FloatingPanels panel store, path
resolver, update propagator and slot reconcilers.

The source is `window_manager.py` (the sqlite-backed store, the
recursive path query and the window registry), `slot_containers.py`
(the single-slot and list reconcilers) and `panel_widget.py` (the
widget contract).  Sqlite tables and Python dicts are embedded as
association lists; live Qt widget objects are embedded as values
carrying an identity tag, so that "same instance object" is value
equality of the tag.
-/

/-! ## Association-list tables

A sqlite table with a unique key, and a Python dict, are both embedded
as a list of key/value rows.  Lookup returns the first matching row. -/

def lookupKey {K V : Type} [DecidableEq K] (l : List (K × V)) (k : K) : Option V :=
  (l.find? (fun p => p.1 == k)).map (fun p => p.2)

def containsKey {K V : Type} [DecidableEq K] (l : List (K × V)) (k : K) : Bool :=
  l.any (fun p => p.1 == k)

/-- UPDATE ... SET value WHERE key: rewrite every row whose key matches. -/
def setVal {K V : Type} [DecidableEq K] (l : List (K × V)) (k : K) (v : V) : List (K × V) :=
  l.map (fun p => if p.1 = k then (k, v) else p)

/-- INSERT OR REPLACE: replace the keyed row when present, else append it. -/
def upsert {K V : Type} [DecidableEq K] (l : List (K × V)) (k : K) (v : V) : List (K × V) :=
  if containsKey l k then setVal l k v else l ++ [(k, v)]

/-- DELETE FROM ... WHERE key. -/
def delKey {K V : Type} [DecidableEq K] (l : List (K × V)) (k : K) : List (K × V) :=
  l.filter (fun p => ¬ p.1 = k)

/-- A batch of UPDATE statements run left to right. -/
def setFold {K V : Type} [DecidableEq K] (t : List (K × V)) (l : List (K × V)) :
    List (K × V) :=
  l.foldl (fun r p => setVal r p.1 p.2) t

/-- A batch of INSERT OR REPLACE statements run left to right. -/
def upFold {K V : Type} [DecidableEq K] (t : List (K × V)) (l : List (K × V)) :
    List (K × V) :=
  l.foldl (fun r p => upsert r p.1 p.2) t

/-- A batch of DELETE statements run left to right. -/
def delFold {K V : Type} [DecidableEq K] (t : List (K × V)) (ds : List K) :
    List (K × V) :=
  ds.foldl (fun r k => delKey r k) t

/-! ## The store state touched by WindowManager.update_panel -/

/-- Key of the Slots table: (parent, slot_name, slot_num).  Slot
numbers are written by the containers as list positions, hence Nat. -/
abbrev SlotKey := String × String × Nat

/-- The database state read and written by `WindowManager.update_panel`
for one panel: the panel's row in its type's attribute table (column
name to stored value; the column set is fixed by the schema, so an
update to a name outside it is a sqlite error) and the Slots table. -/
structure Store where
  row : List (String × String)
  slots : List (SlotKey × String)
deriving DecidableEq, Repr

namespace WindowManager

/-- The attribute loop of `update_panel` (window_manager.py:270-275):
each pair issues `UPDATE {table} SET {col}=? WHERE panelid=?` followed
immediately by its own `commit()`, so when a later pair names a column
that is not in the table (sqlite OperationalError) the earlier updates
are already durable and the exception propagates.  Returns the
committed row together with whether the loop finished without
raising. -/
def attrPhase (row : List (String × String)) :
    List (String × String) → List (String × String) × Bool
  | [] => (row, true)
  | (c, v) :: rest =>
    if containsKey row c then attrPhase (setVal row c v) rest else (row, false)

/-- The slot phase of `update_panel` (window_manager.py:277-285):
tombstoned keys become a DELETE batch, the rest an INSERT OR REPLACE
batch, both run before a single `commit()`. -/
def slotPhase (tbl : List (SlotKey × String)) (sd : List (SlotKey × Option String)) :
    List (SlotKey × String) :=
  let deletes := (sd.filter (fun x => x.2.isNone)).map (fun x => x.1)
  let updates := sd.filterMap (fun x => x.2.map (fun v => (x.1, v)))
  upFold (delFold tbl deletes) updates

/-- `WindowManager.update_panel` restricted to its database effect
(window_manager.py:258-285).  The returned store is the committed,
externally observable state when the call returns or raises; the
boolean records whether it ran to completion.  The fan-out that
follows (lines 286-293) reads `find_subpanel` and touches widgets
only, never the database, and is skipped when the attribute loop
raises. -/
def update_panel (s : Store) (attribute_dict : Option (List (String × String)))
    (slots_dict : Option (List (SlotKey × Option String))) : Store × Bool :=
  match attribute_dict with
  | none =>
    match slots_dict with
    | none => (s, true)
    | some sd => ({ s with slots := slotPhase s.slots sd }, true)
  | some ad =>
    match attrPhase s.row ad with
    | (row1, true) =>
      match slots_dict with
      | none => ({ s with row := row1 }, true)
      | some sd => ({ row := row1, slots := slotPhase s.slots sd }, true)
    | (row1, false) => ({ s with row := row1 }, false)

/-- `WindowManager.get_attributes_dict` (window_manager.py:223-239):
when the panel's type declares no attributes the function returns
None, not a dictionary. -/
def get_attributes_dict (declared : List (String × String))
    (row : List (String × String)) : Option (List (String × String)) :=
  if 0 < declared.length then some row else none

/-- `WindowManager.get_slots_dict` (window_manager.py:241-256): the
rows of the Slots table with the given parent, as a dict keyed by
(slot_name, slot_num); when there are no rows the function returns
None, not a dictionary. -/
def get_slots_dict (slots : List (SlotKey × String)) (panelid : String) :
    Option (List ((String × Nat) × String)) :=
  let rows := slots.filter (fun r => r.1.1 == panelid)
  if 0 < rows.length then some (rows.map (fun r => ((r.1.2.1, r.1.2.2), r.2))) else none

end WindowManager

/-! ## The path resolver: WindowManager.find_subpanel -/

/-- A row of the Slots table (window_manager.py:23-24). -/
structure SlotEdge where
  parent : String
  slotName : String
  slotNum : Nat
  child : String
deriving DecidableEq, Repr

/-- One frontier of the recursive CTE in `find_subpanel`
(window_manager.py:304-309).  Level 0 is the seed row
(root, ':0'); level n+1 joins Slots against level n, appending
'/slot_name:slot_num' to the accumulated path.  Paths are kept at the
parsed tuple level (as produced by line 311 for names free of '/' and
':'); the seed ':0' parses to the dummy step ("", 0).  Sqlite keeps
dequeuing rows until a frontier is empty, so the query returns exactly
the rows of every level and terminates exactly when some level is
empty. -/
def cteLevel (tbl : List SlotEdge) (root : String) :
    Nat → List (String × List (String × Nat))
  | 0 => [(root, [("", 0)])]
  | n + 1 =>
    (cteLevel tbl root n).flatMap (fun r =>
      (tbl.filter (fun e => e.parent == r.1)).map (fun e =>
        (e.child, r.2 ++ [(e.slotName, e.slotNum)])))

/-- `WindowManager.find_subpanel` (window_manager.py:295-312): every
path whose endpoint row carries the target name, collected from the
first N frontiers of the recursive query.  When `cteLevel tbl root N`
is empty this is the whole query output. -/
def find_subpanel (tbl : List SlotEdge) (starting_point target : String) (N : Nat) :
    List (List (String × Nat)) :=
  (List.range N).flatMap (fun n =>
    ((cteLevel tbl starting_point n).filter (fun r => r.1 == target)).map (fun r => r.2))

/-- The recursive query runs to completion iff some frontier is empty;
with the UNION ALL formulation there is no visited set, so this is a
genuine property of the slot graph. -/
def cteTerminates (tbl : List SlotEdge) (root : String) : Prop :=
  ∃ n, cteLevel tbl root n = []

/-- A walk through slot edges from one panel to another, recorded as
its (slot_name, slot_num) steps. -/
inductive IsWalk (tbl : List SlotEdge) : String → List (String × Nat) → String → Prop
  | nil (a : String) : IsWalk tbl a [] a
  | cons (e : SlotEdge) (he : e ∈ tbl) (rest : List (String × Nat)) (c : String)
      (h : IsWalk tbl e.child rest c) : IsWalk tbl e.parent ((e.slotName, e.slotNum) :: rest) c

/-! ## The slot reconcilers: slot_containers.py -/

/-- A live widget instance: the panel id it serves plus an identity
tag distinguishing distinct Qt widget objects for the same panel.
`make_from_db` always constructs a fresh object, modelled by drawing
the tag from a counter. -/
structure Inst where
  pid : String
  tag : Nat
deriving DecidableEq, Repr

/-- A slot update dict as passed to `update_from`: (slot_name,
slot_num) keys to a new child id, or none for a removal.  Python dict
keys are unique; lookup takes the first match. -/
abbrev SlotDict := List ((String × Nat) × Option String)

namespace SingleContainer

/-- `SingleContainer.update_from` (slot_containers.py:94-119) acting
on the single occupant of the layout.  On a removal the code fetches
the occupant and calls `wid.setParent(None)` without checking for
None, so a tombstone arriving while the container is empty raises
AttributeError.  On a replacement any current occupant is detached and
a fresh widget is made from the database. -/
def update_from (slot_name : String) (idx_to_id : SlotDict) (occupant : Option Inst)
    (counter : Nat) : Except String (Option Inst × Nat) :=
  match lookupKey idx_to_id (slot_name, 0) with
  | none => .ok (occupant, counter)
  | some none =>
    match occupant with
    | none => .error "AttributeError"
    | some _ => .ok (none, counter)
  | some (some panelid) => .ok (some ⟨panelid, counter⟩, counter + 1)

end SingleContainer

namespace ListContainer

/-- `QBoxLayout.insertWidget`: indexes past the end append, so the
widget always lands at position min n (length). -/
def qtInsert {α : Type} (n : Nat) (a : α) (l : List α) : List α :=
  l.take n ++ a :: l.drop n

/-- The scan of slot_containers.py:176-181: the first layout index i
(counting from `i`, for `n` remaining positions) whose (slot_name, i)
key occurs in the incoming dict. -/
def firstUpdateIdx (slot_name : String) (d : SlotDict) : Nat → Nat → Option Nat
  | _, 0 => none
  | i, n + 1 =>
    if containsKey d (slot_name, i) then some i else firstUpdateIdx slot_name d (i + 1) n

/-- The removal pass of `ListContainer.update_from`
(slot_containers.py:176-195): widgets before the first updated index
stay in the layout; every widget from that index on is detached in
order.  Returns (kept layout, removed_order, insert_idx), where
insert_idx defaults to the layout length when no index is updated. -/
def splitAtPivot (slot_name : String) (d : SlotDict) (layout : List Inst) :
    List Inst × List Inst × Nat :=
  match firstUpdateIdx slot_name d 0 layout.length with
  | none => (layout, [], layout.length)
  | some p => (layout.take p, layout.drop p, p)

/-- The while-loop of slot_containers.py:200-227, with explicit fuel.
Each iteration handles one list position: a tombstone places nothing,
an id found in existing_widgets is popped and reinserted, an unknown
id is materialized from the database with a fresh tag, and a position
with no entry takes the next detached widget back — or raises the
index-skip exception when none remain.  The loop exits as soon as
every key of the incoming dict (for this slot name) has been
addressed.  Every iteration consumes an unaddressed key or one
reinsertion offset, so the fuel chosen by `update_from` below is never
exhausted; the "fuel" branch is unreachable there. -/
def lcLoop (slot_name : String) (d : SlotDict) (removed_order : List Inst)
    (insert_idx : Nat) :
    Nat → List (String × Nat) → List (String × Inst) → List Inst → Nat → Nat →
    Except String (List Inst × Nat)
  | 0, unaddressed, _, layout, _, counter =>
    if unaddressed.isEmpty then .ok (layout, counter) else .error "fuel"
  | fuel + 1, unaddressed, existing, layout, new_idx, counter =>
    if unaddressed.isEmpty then .ok (layout, counter)
    else
      match lookupKey d (slot_name, new_idx) with
      | some none =>
        lcLoop slot_name d removed_order insert_idx fuel
          (unaddressed.erase (slot_name, new_idx)) existing layout (new_idx + 1) counter
      | some (some new_panelid) =>
        (match lookupKey existing new_panelid with
        | some wid =>
          lcLoop slot_name d removed_order insert_idx fuel
            (unaddressed.erase (slot_name, new_idx)) (delKey existing new_panelid)
            (qtInsert new_idx wid layout) (new_idx + 1) counter
        | none =>
          lcLoop slot_name d removed_order insert_idx fuel
            (unaddressed.erase (slot_name, new_idx)) existing
            (qtInsert new_idx (Inst.mk new_panelid counter) layout) (new_idx + 1)
            (counter + 1))
      | none =>
        if new_idx - insert_idx < removed_order.length then
          lcLoop slot_name d removed_order insert_idx fuel unaddressed existing
            (qtInsert new_idx (removed_order.getD (new_idx - insert_idx) ⟨"", 0⟩) layout)
            (new_idx + 1) counter
        else
          .error "Index was skipped over in list slot"

/-- `ListContainer.update_from` (slot_containers.py:167-227) on a
layout of live instances.  existing_widgets is the dict of detached
widgets keyed by panel id (later duplicates overwrite, as in Python);
unaddressed is the set of incoming keys carrying this container's slot
name.  counter feeds `make_from_db` with fresh identity tags. -/
def update_from (slot_name : String) (idx_to_id : SlotDict) (layout : List Inst)
    (counter : Nat) : Except String (List Inst × Nat) :=
  match splitAtPivot slot_name idx_to_id layout with
  | (kept, removed_order, insert_idx) =>
    let existing := removed_order.foldl (fun m w => upsert m w.pid w) []
    let unaddressed :=
      ((idx_to_id.map (fun x => x.1)).filter (fun k => k.1 == slot_name)).dedup
    lcLoop slot_name idx_to_id removed_order insert_idx
      (unaddressed.length + removed_order.length + 1) unaddressed existing kept
      insert_idx counter

end ListContainer

/-! ## The window registry: create_window / window_closed -/

namespace WindowManager

/-- The manager's `windows` dict: panel id to the set of open root
views for that id (window_manager.py:71), the set embedded as a
duplicate-free list. -/
abbrev Registry := List (String × List Inst)

/-- `WindowManager.create_window` restricted to the registry effect
(window_manager.py:146-150): a fresh entry when the id is new,
otherwise set-insertion into the existing entry. -/
def create_window (windows : Registry) (name : String) (widget : Inst) : Registry :=
  if containsKey windows name then
    windows.map (fun p =>
      if p.1 = name then (p.1, if widget ∈ p.2 then p.2 else p.2 ++ [widget]) else p)
  else
    windows ++ [(name, [widget])]

/-- `WindowManager.window_closed` (window_manager.py:169-180): remove
the window from its id's set and drop the entry when the set empties.
A missing id or a window not in the set raises KeyError before any
mutation, leaving the registry unchanged. -/
def window_closed (windows : Registry) (name : String) (window : Inst) : Registry :=
  match lookupKey windows name with
  | none => windows
  | some s =>
    if window ∈ s then
      let s1 := s.erase window
      if s1.isEmpty then delKey windows name else setVal windows name s1
    else windows

/-- The registry operations reachable from the Qt signal wiring:
window creation and the closed signal. -/
inductive WinOp where
  | create (name : String) (widget : Inst)
  | close (name : String) (widget : Inst)

def applyWinOp (windows : Registry) : WinOp → Registry
  | .create n w => create_window windows n w
  | .close n w => window_closed windows n w

/-- The registry reached from init_manager's empty dict
(window_manager.py:71) by a sequence of operations. -/
def runWinOps (ops : List WinOp) : Registry :=
  ops.foldl applyWinOp []

end WindowManager

/-- C1: as stated, for an edit carrying both an attribute diff and a
slot diff, Store.apply (update_panel) would commit the two parts as
one atomic unit, with no partially applied state observable after a
failure.  Refuted at a concrete input: the diff updates the existing
column "val" and then the nonexistent column "bogus"; the first UPDATE
is committed before the second raises, so the call fails with the
attribute row changed while the slot upsert of the same edit was never
applied. -/
theorem c1_counterexample :
    (WindowManager.update_panel ⟨[("panelid", "p1"), ("val", "0")], []⟩
        (some [("val", "1"), ("bogus", "2")])
        (some [((("p1", "s", 0) : SlotKey), some "c1")])).2 = false ∧
    (WindowManager.update_panel ⟨[("panelid", "p1"), ("val", "0")], []⟩
        (some [("val", "1"), ("bogus", "2")])
        (some [((("p1", "s", 0) : SlotKey), some "c1")])).1 =
      ⟨[("panelid", "p1"), ("val", "1")], []⟩ ∧
    (WindowManager.update_panel ⟨[("panelid", "p1"), ("val", "0")], []⟩
        (some [("val", "1"), ("bogus", "2")])
        (some [((("p1", "s", 0) : SlotKey), some "c1")])).1 ≠
      ⟨[("panelid", "p1"), ("val", "0")], []⟩ := by
  refine ⟨rfl, rfl, ?_⟩
  decide

/-! ## Association-list lemmas -/

theorem containsKey_eq_keys {K V : Type} [DecidableEq K] (l : List (K × V)) (k : K) :
    containsKey l k = (l.map Prod.fst).any (fun x => x == k) := by
  induction l with
  | nil => rfl
  | cons p rest ih => simp [containsKey, List.any_cons] at ih ⊢; rw [ih]

theorem containsKey_iff {K V : Type} [DecidableEq K] (l : List (K × V)) (k : K) :
    containsKey l k = true ↔ k ∈ l.map Prod.fst := by
  simp [containsKey, List.any_eq_true, List.mem_map]

theorem keys_setVal {K V : Type} [DecidableEq K] (l : List (K × V)) (k : K) (v : V) :
    (setVal l k v).map Prod.fst = l.map Prod.fst := by
  induction l with
  | nil => rfl
  | cons p rest ih =>
    simp only [setVal, List.map_cons] at ih ⊢
    by_cases h : p.1 = k
    · simp [h, ih]
    · simp [h, ih]

theorem containsKey_setVal {K V : Type} [DecidableEq K] (l : List (K × V)) (k k' : K)
    (v : V) : containsKey (setVal l k v) k' = containsKey l k' := by
  rw [containsKey_eq_keys, containsKey_eq_keys, keys_setVal]

theorem mem_setVal {K V : Type} [DecidableEq K] {l : List (K × V)} {k : K} {v : V}
    {p : K × V} (hp : p ∈ setVal l k v) : p = (k, v) ∨ (p ∈ l ∧ p.1 ≠ k) := by
  simp only [setVal, List.mem_map] at hp
  obtain ⟨q, hq, rfl⟩ := hp
  by_cases h : q.1 = k
  · left; simp [h]
  · right; simp [h, hq]

theorem setVal_fix {K V : Type} [DecidableEq K] {l : List (K × V)} {k : K} {v : V}
    (h : ∀ p ∈ l, p.1 = k → p.2 = v) : setVal l k v = l := by
  induction l with
  | nil => rfl
  | cons p rest ih =>
    obtain ⟨a, b⟩ := p
    have hrest : setVal rest k v = rest :=
      ih fun q hq hqk => h q (List.mem_cons_of_mem _ hq) hqk
    simp only [setVal, List.map_cons] at hrest ⊢
    rw [hrest]
    by_cases hp : a = k
    · have hv : b = v := h (a, b) (List.mem_cons_self _ _) hp
      simp [hp, hv]
    · simp [hp]

/-! ## C1: atomicity of update_panel -/

theorem attrPhase_eq (row : List (String × String)) (l : List (String × String)) :
    WindowManager.attrPhase row l =
      (setFold row (l.takeWhile (fun p => containsKey row p.1)),
       l.all (fun p => containsKey row p.1)) := by
  induction l generalizing row with
  | nil => rfl
  | cons p rest ih =>
    obtain ⟨c, v⟩ := p
    have hpred : (fun q : String × String => containsKey (setVal row c v) q.1) =
        (fun q : String × String => containsKey row q.1) :=
      funext fun q => containsKey_setVal row c q.1 v
    cases hc : containsKey row c with
    | true =>
      simp only [WindowManager.attrPhase, hc, if_true]
      rw [ih (setVal row c v), hpred]
      simp [List.takeWhile_cons, List.all_cons, hc, setFold]
    | false =>
      simp [WindowManager.attrPhase, hc, List.takeWhile_cons, List.all_cons, setFold]

/-- C1 (amended): update_panel does not commit the attribute and slot
parts as one unit.  Its exact committed effect: the attribute phase
applies and individually commits the longest prefix of the attribute
diff whose columns exist, reporting failure as soon as one does not;
the slot phase (which alone is a single commit of its deletes and
upserts) runs only when the whole attribute phase succeeded.  Thus
after a mid-diff failure the committed attribute prefix remains
observable while the slot diff is entirely unapplied. -/
theorem c1_amended_commit (s : Store) (ad : List (String × String))
    (sd : List (SlotKey × Option String)) :
    WindowManager.update_panel s (some ad) (some sd) =
      (⟨setFold s.row (ad.takeWhile (fun p => containsKey s.row p.1)),
        if ad.all (fun p => containsKey s.row p.1) then WindowManager.slotPhase s.slots sd
        else s.slots⟩,
       ad.all (fun p => containsKey s.row p.1)) := by
  simp only [WindowManager.update_panel, attrPhase_eq]
  cases h : ad.all (fun p => containsKey s.row p.1) <;> simp [h]

/-! ## C7: idempotence of update_panel -/

theorem keys_setFold {K V : Type} [DecidableEq K] (t l : List (K × V)) :
    (setFold t l).map Prod.fst = t.map Prod.fst := by
  induction l generalizing t with
  | nil => rfl
  | cons p rest ih =>
    show (setFold (setVal t p.1 p.2) rest).map Prod.fst = t.map Prod.fst
    rw [ih, keys_setVal]

theorem containsKey_setFold {K V : Type} [DecidableEq K] (t l : List (K × V)) (k : K) :
    containsKey (setFold t l) k = containsKey t k := by
  rw [containsKey_eq_keys, containsKey_eq_keys, keys_setFold]

theorem setFold_keeps {K V : Type} [DecidableEq K] {l t : List (K × V)} {k : K} {v : V}
    (hk : k ∉ l.map Prod.fst) (ht : ∀ p ∈ t, p.1 = k → p.2 = v) :
    ∀ p ∈ setFold t l, p.1 = k → p.2 = v := by
  induction l generalizing t with
  | nil => exact ht
  | cons q rest ih =>
    have hq : q.1 ≠ k := fun h => hk (by simp [← h])
    refine ih (fun h => hk (by simp [h])) ?_
    intro p hp hpk
    rcases mem_setVal hp with rfl | ⟨hpt, _⟩
    · exact absurd hpk hq
    · exact ht p hpt hpk

theorem setFold_pairs {K V : Type} [DecidableEq K] {l : List (K × V)} {k : K} {v : V}
    (hkv : (k, v) ∈ l) (hnd : (l.map Prod.fst).Nodup) :
    ∀ (t : List (K × V)), ∀ p ∈ setFold t l, p.1 = k → p.2 = v := by
  induction l with
  | nil => cases hkv
  | cons q rest ih =>
    intro t
    simp only [List.map_cons, List.nodup_cons] at hnd
    rcases List.mem_cons.1 hkv with rfl | hmem
    · show ∀ p ∈ setFold (setVal t k v) rest, p.1 = k → p.2 = v
      refine setFold_keeps hnd.1 ?_
      intro p hp hpk
      rcases mem_setVal hp with rfl | ⟨_, hne⟩
      · rfl
      · exact absurd hpk hne
    · show ∀ p ∈ setFold (setVal t q.1 q.2) rest, p.1 = k → p.2 = v
      exact ih hmem hnd.2 (setVal t q.1 q.2)

theorem setFold_fix {K V : Type} [DecidableEq K] {l t : List (K × V)}
    (h : ∀ q ∈ l, ∀ p ∈ t, p.1 = q.1 → p.2 = q.2) : setFold t l = t := by
  induction l with
  | nil => rfl
  | cons q rest ih =>
    show setFold (setVal t q.1 q.2) rest = t
    rw [setVal_fix (h q (List.mem_cons_self _ _))]
    exact ih fun q' hq' => h q' (List.mem_cons_of_mem _ hq')

theorem attrPhase_idem (row : List (String × String)) (l : List (String × String))
    (hnd : (l.map Prod.fst).Nodup) :
    WindowManager.attrPhase (WindowManager.attrPhase row l).1 l =
      WindowManager.attrPhase row l := by
  rw [attrPhase_eq row l]
  rw [attrPhase_eq (setFold row (l.takeWhile fun p => containsKey row p.1)) l]
  have hpred : (fun p : String × String =>
      containsKey (setFold row (l.takeWhile fun q => containsKey row q.1)) p.1) =
      (fun p : String × String => containsKey row p.1) :=
    funext fun p => containsKey_setFold _ _ _
  rw [hpred]
  have hndtw : ((l.takeWhile fun p => containsKey row p.1).map Prod.fst).Nodup :=
    hnd.sublist ((List.takeWhile_sublist _).map Prod.fst)
  refine Prod.ext ?_ rfl
  show setFold (setFold row _) (l.takeWhile fun p => containsKey row p.1) = _
  exact setFold_fix fun q hq p hp hpk =>
    setFold_pairs (by simpa using hq) hndtw row p hp hpk

theorem mem_upsert {K V : Type} [DecidableEq K] {l : List (K × V)} {k : K} {v : V}
    {p : K × V} (hp : p ∈ upsert l k v) : p = (k, v) ∨ (p ∈ l ∧ p.1 ≠ k) := by
  by_cases hc : containsKey l k
  · rw [upsert, if_pos hc] at hp
    exact mem_setVal hp
  · rw [upsert, if_neg hc] at hp
    rcases List.mem_append.1 hp with hl | hr
    · right
      refine ⟨hl, fun hk => hc ?_⟩
      exact (containsKey_iff l k).2 (List.mem_map.2 ⟨p, hl, hk⟩)
    · left; simpa using hr

theorem keys_upsert_sub {K V : Type} [DecidableEq K] {l : List (K × V)} {k k' : K}
    {v : V} (h : k' ∈ (upsert l k v).map Prod.fst) : k' ∈ l.map Prod.fst ∨ k' = k := by
  simp only [List.mem_map] at h
  obtain ⟨p, hp, rfl⟩ := h
  rcases mem_upsert hp with rfl | ⟨hl, _⟩
  · right; rfl
  · left; exact List.mem_map.2 ⟨p, hl, rfl⟩

theorem keys_upsert_mem {K V : Type} [DecidableEq K] {l : List (K × V)} {k k' : K}
    {v : V} (h : k' ∈ l.map Prod.fst) : k' ∈ (upsert l k v).map Prod.fst := by
  by_cases hc : containsKey l k
  · rw [upsert, if_pos hc, keys_setVal]; exact h
  · rw [upsert, if_neg hc, List.map_append]; exact List.mem_append_left _ h

theorem keys_upsert_self {K V : Type} [DecidableEq K] (l : List (K × V)) (k : K)
    (v : V) : k ∈ (upsert l k v).map Prod.fst := by
  by_cases hc : containsKey l k
  · rw [upsert, if_pos hc, keys_setVal]
    exact (containsKey_iff l k).1 hc
  · rw [upsert, if_neg hc, List.map_append]
    exact List.mem_append_right _ (by simp)

theorem upsert_fix {K V : Type} [DecidableEq K] {l : List (K × V)} {k : K} {v : V}
    (hk : k ∈ l.map Prod.fst) (h : ∀ p ∈ l, p.1 = k → p.2 = v) : upsert l k v = l := by
  rw [upsert, if_pos ((containsKey_iff l k).2 hk)]
  exact setVal_fix h

theorem upFold_keeps {K V : Type} [DecidableEq K] {us t : List (K × V)} {k : K} {v : V}
    (hk : k ∉ us.map Prod.fst) (ht : (∀ p ∈ t, p.1 = k → p.2 = v) ∧ k ∈ t.map Prod.fst) :
    (∀ p ∈ upFold t us, p.1 = k → p.2 = v) ∧ k ∈ (upFold t us).map Prod.fst := by
  induction us generalizing t with
  | nil => exact ht
  | cons q rest ih =>
    have hq : q.1 ≠ k := fun h => hk (by simp [h])
    show (∀ p ∈ upFold (upsert t q.1 q.2) rest, p.1 = k → p.2 = v) ∧
      k ∈ (upFold (upsert t q.1 q.2) rest).map Prod.fst
    refine ih (fun h => hk (by simp [h])) ⟨?_, keys_upsert_mem ht.2⟩
    intro p hp hpk
    rcases mem_upsert hp with rfl | ⟨hpt, _⟩
    · exact absurd hpk hq
    · exact ht.1 p hpt hpk

theorem upFold_pairs {K V : Type} [DecidableEq K] {us : List (K × V)} {k : K} {v : V}
    (hkv : (k, v) ∈ us) (hnd : (us.map Prod.fst).Nodup) (t : List (K × V)) :
    (∀ p ∈ upFold t us, p.1 = k → p.2 = v) ∧ k ∈ (upFold t us).map Prod.fst := by
  induction us generalizing t with
  | nil => cases hkv
  | cons q rest ih =>
    simp only [List.map_cons, List.nodup_cons] at hnd
    rcases List.mem_cons.1 hkv with rfl | hmem
    · show (∀ p ∈ upFold (upsert t k v) rest, p.1 = k → p.2 = v) ∧
        k ∈ (upFold (upsert t k v) rest).map Prod.fst
      refine upFold_keeps hnd.1 ⟨?_, keys_upsert_self t k v⟩
      intro p hp hpk
      rcases mem_upsert hp with rfl | ⟨_, hne⟩
      · rfl
      · exact absurd hpk hne
    · show (∀ p ∈ upFold (upsert t q.1 q.2) rest, p.1 = k → p.2 = v) ∧
        k ∈ (upFold (upsert t q.1 q.2) rest).map Prod.fst
      exact ih hmem hnd.2 (upsert t q.1 q.2)

theorem upFold_fix {K V : Type} [DecidableEq K] {us t : List (K × V)}
    (h : ∀ q ∈ us, (∀ p ∈ t, p.1 = q.1 → p.2 = q.2) ∧ q.1 ∈ t.map Prod.fst) :
    upFold t us = t := by
  induction us with
  | nil => rfl
  | cons q rest ih =>
    show upFold (upsert t q.1 q.2) rest = t
    rw [upsert_fix (h q (List.mem_cons_self _ _)).2 (h q (List.mem_cons_self _ _)).1]
    exact ih fun q' hq' => h q' (List.mem_cons_of_mem _ hq')

theorem mem_keys_upFold {K V : Type} [DecidableEq K] {us t : List (K × V)} {k : K}
    (h : k ∈ (upFold t us).map Prod.fst) : k ∈ t.map Prod.fst ∨ k ∈ us.map Prod.fst := by
  induction us generalizing t with
  | nil => exact Or.inl h
  | cons q rest ih =>
    have h' : k ∈ (upFold (upsert t q.1 q.2) rest).map Prod.fst := h
    rcases ih h' with hin | hin
    · rcases keys_upsert_sub hin with hl | rfl
      · exact Or.inl hl
      · exact Or.inr (by simp)
    · exact Or.inr (List.mem_cons_of_mem _ hin)

theorem delKey_absent {K V : Type} [DecidableEq K] {l : List (K × V)} {k : K}
    (h : k ∉ l.map Prod.fst) : delKey l k = l := by
  rw [delKey, List.filter_eq_self]
  intro p hp
  simp only [decide_eq_true_eq]
  exact fun hpk => h (List.mem_map.2 ⟨p, hp, hpk⟩)

theorem keys_delKey_sub {K V : Type} [DecidableEq K] {l : List (K × V)} {k k' : K}
    (h : k' ∈ (delKey l k).map Prod.fst) : k' ∈ l.map Prod.fst := by
  simp only [List.mem_map] at h ⊢
  obtain ⟨p, hp, rfl⟩ := h
  exact ⟨p, List.mem_of_mem_filter hp, rfl⟩

theorem not_mem_keys_delKey {K V : Type} [DecidableEq K] (l : List (K × V)) (k : K) :
    k ∉ (delKey l k).map Prod.fst := by
  intro h
  simp only [List.mem_map] at h
  obtain ⟨p, hp, hpk⟩ := h
  have := List.of_mem_filter hp
  simp only [decide_eq_true_eq] at this
  exact this hpk

theorem mem_keys_delFold {K V : Type} [DecidableEq K] {ds : List K}
    {t : List (K × V)} {k : K} (h : k ∈ (delFold t ds).map Prod.fst) :
    k ∈ t.map Prod.fst ∧ k ∉ ds := by
  induction ds generalizing t with
  | nil => exact ⟨h, by simp⟩
  | cons d rest ih =>
    have h' : k ∈ (delFold (delKey t d) rest).map Prod.fst := h
    obtain ⟨hmem, hnot⟩ := ih h'
    have hkd : k ≠ d := fun hkd => not_mem_keys_delKey t d (hkd ▸ hmem)
    exact ⟨keys_delKey_sub hmem, by simp [hkd, hnot]⟩

theorem delFold_absent {K V : Type} [DecidableEq K] {ds : List K} {t : List (K × V)}
    (h : ∀ k ∈ ds, k ∉ t.map Prod.fst) : delFold t ds = t := by
  induction ds with
  | nil => rfl
  | cons d rest ih =>
    show delFold (delKey t d) rest = t
    rw [delKey_absent (h d (List.mem_cons_self _ _))]
    exact ih fun k hk => h k (List.mem_cons_of_mem _ hk)

theorem keys_filterMapSome {K W : Type} (sd : List (K × Option W)) :
    (sd.filterMap (fun x => x.2.map (fun v => (x.1, v)))).map Prod.fst =
      (sd.filter (fun x => x.2.isSome)).map Prod.fst := by
  induction sd with
  | nil => rfl
  | cons x rest ih =>
    cases hx : x.2 <;> simp [List.filterMap_cons, List.filter_cons, hx, ih]

theorem slotPhase_idem (tbl : List (SlotKey × String))
    (sd : List (SlotKey × Option String)) (hnd : (sd.map Prod.fst).Nodup) :
    WindowManager.slotPhase (WindowManager.slotPhase tbl sd) sd =
      WindowManager.slotPhase tbl sd := by
  have husk : ((sd.filterMap (fun x => x.2.map (fun v => (x.1, v)))).map Prod.fst).Nodup := by
    rw [keys_filterMapSome]
    exact hnd.sublist ((List.filter_sublist _).map Prod.fst)
  have hdisj : ∀ k ∈ (sd.filter (fun x => x.2.isNone)).map (fun x => x.1),
      k ∉ (sd.filterMap (fun x => x.2.map (fun v => (x.1, v)))).map Prod.fst := by
    intro k hkds hkus
    rw [keys_filterMapSome] at hkus
    simp only [List.mem_map, List.mem_filter] at hkds hkus
    obtain ⟨x, ⟨hx, hxn⟩, hxk⟩ := hkds
    obtain ⟨y, ⟨hy, hys⟩, hyk⟩ := hkus
    have hxy : x = y :=
      List.inj_on_of_nodup_map hnd hx hy (by rw [show x.1 = k from hxk, ← hyk])
    subst hxy
    cases hx2 : x.2 <;> simp [hx2] at hxn hys
  simp only [WindowManager.slotPhase]
  have hA : ∀ k ∈ (sd.filter (fun x => x.2.isNone)).map (fun x => x.1),
      k ∉ (upFold (delFold tbl ((sd.filter (fun x => x.2.isNone)).map (fun x => x.1)))
        (sd.filterMap (fun x => x.2.map (fun v => (x.1, v))))).map Prod.fst := by
    intro k hk hmem
    rcases mem_keys_upFold hmem with hin | hin
    · exact (mem_keys_delFold hin).2 hk
    · exact hdisj k hk hin
  rw [delFold_absent hA]
  apply upFold_fix
  intro q hq
  exact upFold_pairs hq husk _

/-- C7: applying the same diff twice in a row through update_panel
leaves exactly the store state (attribute row and slot table) of
applying it once: re-running the attribute UPDATEs rewrites each
column to the value it already has, re-running the slot DELETEs
removes keys already absent, and re-running the slot INSERT OR
REPLACEs rewrites rows in place.  The hypotheses record that the diffs
are Python dicts, whose keys are unique. -/
theorem c7_apply_idempotent (s : Store) (ad : Option (List (String × String)))
    (sd : Option (List (SlotKey × Option String)))
    (ha : ((ad.getD []).map Prod.fst).Nodup)
    (hs : ((sd.getD []).map Prod.fst).Nodup) :
    (WindowManager.update_panel (WindowManager.update_panel s ad sd).1 ad sd).1 =
      (WindowManager.update_panel s ad sd).1 := by
  cases ad with
  | none =>
    cases sd with
    | none => rfl
    | some sd1 =>
      have hs1 : (sd1.map Prod.fst).Nodup := by simpa using hs
      simp only [WindowManager.update_panel]
      rw [slotPhase_idem s.slots sd1 hs1]
  | some ad1 =>
    have ha1 : (ad1.map Prod.fst).Nodup := by simpa using ha
    have hidem := attrPhase_idem s.row ad1 ha1
    cases h1 : WindowManager.attrPhase s.row ad1 with
    | mk row1 ok1 =>
      rw [h1] at hidem
      cases sd with
      | none =>
        cases ok1 with
        | true => simp only [WindowManager.update_panel, h1, hidem]
        | false => simp only [WindowManager.update_panel, h1, hidem]
      | some sd1 =>
        have hs1 : (sd1.map Prod.fst).Nodup := by simpa using hs
        cases ok1 with
        | true =>
          simp only [WindowManager.update_panel, h1, hidem]
          rw [slotPhase_idem s.slots sd1 hs1]
        | false => simp only [WindowManager.update_panel, h1, hidem]

/-- Witness for c7_apply_idempotent: a concrete store and diff, the nodup-key
hypotheses discharged by computation. -/
theorem c7_witness :
    (WindowManager.update_panel
        (WindowManager.update_panel
          ⟨[("panelid", "p1"), ("val", "0")], [((("p1", "s", 0) : SlotKey), "a")]⟩
          (some [("val", "7")])
          (some [((("p1", "s", 0) : SlotKey), none), ((("p1", "s", 1) : SlotKey), some "b")])).1
        (some [("val", "7")])
        (some [((("p1", "s", 0) : SlotKey), none), ((("p1", "s", 1) : SlotKey), some "b")])).1 =
      (WindowManager.update_panel
        ⟨[("panelid", "p1"), ("val", "0")], [((("p1", "s", 0) : SlotKey), "a")]⟩
        (some [("val", "7")])
        (some [((("p1", "s", 0) : SlotKey), none), ((("p1", "s", 1) : SlotKey), some "b")])).1 :=
  c7_apply_idempotent _ _ _ (by decide) (by decide)

/-! ## C2, C3: list reconciler scenarios -/

/-- C2: as stated, on the live sequence ["a","b","c"] the diff
{0: tombstone} alone would fail with the index-skip (IndexGap)
exception.  Refuted: it does not raise; the removal pass detaches all
three widgets, the loop handles the single tombstone key at index 0
and exits with every key addressed, so the call succeeds and returns
an empty sequence, silently discarding "b" and "c". -/
theorem c2_counterexample :
    ListContainer.update_from "s" [(("s", 0), none)]
        [⟨"a", 0⟩, ⟨"b", 1⟩, ⟨"c", 2⟩] 10 = .ok ([], 10) := by
  rfl

/-- C2 (amended): the diff {0: tombstone} alone does not raise
IndexGap — it detaches every entry from index 0, reinserts none, and
produces the empty sequence; the renumbered diff
{0:"b", 1:"c", 2: tombstone} succeeds and produces ["b","c"], served
by the original instance objects (tags 1 and 2). -/
theorem c2_amended_behavior :
    ListContainer.update_from "s" [(("s", 0), none)]
        [⟨"a", 0⟩, ⟨"b", 1⟩, ⟨"c", 2⟩] 10 = .ok ([], 10) ∧
    ListContainer.update_from "s"
        [(("s", 0), some "b"), (("s", 1), some "c"), (("s", 2), none)]
        [⟨"a", 0⟩, ⟨"b", 1⟩, ⟨"c", 2⟩] 10 = .ok ([⟨"b", 1⟩, ⟨"c", 2⟩], 10) := by
  exact ⟨rfl, rfl⟩

/-- C3: as stated, on ["a","b","c"] the diff {1: "d"} would produce
["a","d","c"] with "a" and "c" served by their original instances.
Refuted: the loop exits as soon as its only key (index 1) is handled,
so the detached "c" widget is never reinserted; the result is
["a","d"], whose panel-id sequence differs from the claimed
["a","d","c"]. -/
theorem c3_counterexample :
    ListContainer.update_from "s" [(("s", 1), some "d")]
        [⟨"a", 0⟩, ⟨"b", 1⟩, ⟨"c", 2⟩] 10 = .ok ([⟨"a", 0⟩, ⟨"d", 10⟩], 11) ∧
    ([(⟨"a", 0⟩ : Inst), ⟨"d", 10⟩].map Inst.pid ≠ ["a", "d", "c"]) := by
  exact ⟨rfl, by decide⟩

/-- C3 (amended): on ["a","b","c"] the diff {1: "d"} produces ["a","d"]:
the untouched head "a" keeps its instance (tag 0), "d" is newly
materialized from the store (fresh tag 10, counter advanced to 11),
and "b" and "c" are detached by the removal pass — with "c" never
reinserted, because the loop stops once every diff key is handled. -/
theorem c3_amended_behavior :
    ListContainer.update_from "s" [(("s", 1), some "d")]
        [⟨"a", 0⟩, ⟨"b", 1⟩, ⟨"c", 2⟩] 10 = .ok ([⟨"a", 0⟩, ⟨"d", 10⟩], 11) ∧
    ListContainer.splitAtPivot "s" [(("s", 1), some "d")] [⟨"a", 0⟩, ⟨"b", 1⟩, ⟨"c", 2⟩] =
      ([⟨"a", 0⟩], [⟨"b", 1⟩, ⟨"c", 2⟩], 1) := by
  exact ⟨rfl, by decide⟩

/-! ## C4, C5: the recursive path query -/

theorem cte_selfloop (n : Nat) :
    cteLevel [⟨"A", "s", 0, "A"⟩] "A" n =
      [("A", ("", 0) :: List.replicate n ("s", 0))] := by
  induction n with
  | zero => rfl
  | succ n ih => simp [cteLevel, ih, List.replicate_succ']

/-- C4: as stated, the path-resolver traversal would terminate even on
a slot-edge graph with a cycle reachable from the root, bounding
itself with a visited set or depth cap.  Refuted: the recursive query
has no such bound; on the one-row table making panel "A" its own child
(a self-loop created by dropping a panel into its own slot) every
frontier contains a row, so no frontier is ever empty and the query —
hence find_subpanel, hence update_panel's fan-out — never returns. -/
theorem c4_counterexample : ¬ cteTerminates [⟨"A", "s", 0, "A"⟩] "A" := by
  rintro ⟨n, hn⟩
  rw [cte_selfloop n] at hn
  cases hn

theorem cte_rank_bound {tbl : List SlotEdge} {rank : String → Nat}
    (hr : ∀ e ∈ tbl, rank e.child < rank e.parent) (root : String) :
    ∀ n, ∀ r ∈ cteLevel tbl root n, n + rank r.1 ≤ rank root := by
  intro n
  induction n with
  | zero =>
    intro r hr0
    simp only [cteLevel, List.mem_singleton] at hr0
    subst hr0
    simp
  | succ n ih =>
    intro r hrn
    simp only [cteLevel, List.mem_flatMap, List.mem_map, List.mem_filter] at hrn
    obtain ⟨q, hq, e, ⟨he, hpe⟩, rfl⟩ := hrn
    have hpe1 : e.parent = q.1 := by simpa using hpe
    have hlt := hr e he
    have hq1 := ih q hq
    rw [hpe1] at hlt
    simp only []
    omega

/-- C4 (amended): find_subpanel's recursive query carries no visited
set or depth cap; it terminates exactly when the frontier empties.  On
any slot table admitting a rank function that decreases along every
edge (in particular, any acyclic table) the frontier is empty after
rank(root)+1 levels, so the traversal terminates; on a cyclic graph
reachable from the root it loops forever (c4_counterexample). -/
theorem c4_amended_termination (tbl : List SlotEdge) (root : String) (rank : String → Nat)
    (hr : ∀ e ∈ tbl, rank e.child < rank e.parent) :
    cteLevel tbl root (rank root + 1) = [] ∧ cteTerminates tbl root := by
  have hempty : cteLevel tbl root (rank root + 1) = [] := by
    cases h : cteLevel tbl root (rank root + 1) with
    | nil => rfl
    | cons r rest =>
      have hmem : r ∈ cteLevel tbl root (rank root + 1) := by
        rw [h]; exact List.mem_cons_self _ _
      have hb := cte_rank_bound hr root _ r hmem
      omega
  exact ⟨hempty, ⟨_, hempty⟩⟩

/-- Witness for c4_amended_termination on a concrete acyclic table. -/
theorem c4_amended_witness :
    cteLevel [⟨"R", "s", 0, "X"⟩] "R"
        ((fun x : String => if x = "R" then 1 else 0) "R" + 1) = [] ∧
    cteTerminates [⟨"R", "s", 0, "X"⟩] "R" :=
  c4_amended_termination [⟨"R", "s", 0, "X"⟩] "R"
    (fun x : String => if x = "R" then 1 else 0) (by decide)

theorem cte_seed (tbl : List SlotEdge) (root : String) :
    (root, [(("" : String), (0 : Nat))]) ∈ cteLevel tbl root 0 := by
  simp [cteLevel]

theorem cte_walk_mem {tbl : List SlotEdge} {a : String} {w : List (String × Nat)}
    {c : String} (hw : IsWalk tbl a w c) :
    ∀ {root : String} {n : Nat} {p : List (String × Nat)},
      (a, p) ∈ cteLevel tbl root n → (c, p ++ w) ∈ cteLevel tbl root (n + w.length) := by
  induction hw with
  | nil a =>
    intro root n p hp
    simpa using hp
  | cons e he rest c2 h ih =>
    intro root n p hp
    have hstep : (e.child, p ++ [(e.slotName, e.slotNum)]) ∈ cteLevel tbl root (n + 1) := by
      simp only [cteLevel, List.mem_flatMap, List.mem_map, List.mem_filter]
      exact ⟨(e.parent, p), hp, e, ⟨he, by simp⟩, rfl⟩
    have hrest := ih hstep
    rw [← List.append_cons p (e.slotName, e.slotNum) rest] at hrest
    have hn : n + 1 + rest.length = n + ((e.slotName, e.slotNum) :: rest).length := by
      simp [List.length_cons]
      omega
    rw [hn] at hrest
    exact hrest

theorem rank_walk {tbl : List SlotEdge} {rank : String → Nat}
    (hr : ∀ e ∈ tbl, rank e.child < rank e.parent) {a : String}
    {w : List (String × Nat)} {c : String} (hw : IsWalk tbl a w c) :
    rank c + w.length ≤ rank a := by
  induction hw with
  | nil a => simp
  | cons e he rest c2 h ih =>
    have := hr e he
    simp only [List.length_cons]
    omega

/-- C5: on a slot table admitting a rank function decreasing along
every edge (an acyclic graph), find_subpanel returns every directed
walk from the root to the target (each path carrying the seed step
("",0) that line 311 parses from the ':0' anchor); in particular two
distinct walks both appear, and when root = target the path whose
step list after the seed is empty is included. -/
theorem c5_path_completeness (tbl : List SlotEdge) (root target : String) (rank : String → Nat)
    (hr : ∀ e ∈ tbl, rank e.child < rank e.parent) :
    (∀ w, IsWalk tbl root w target →
      ((("" : String), (0 : Nat)) :: w) ∈ find_subpanel tbl root target (rank root + 1)) ∧
    (root = target →
      ([(("" : String), (0 : Nat))] : List (String × Nat)) ∈
        find_subpanel tbl root target (rank root + 1)) := by
  have main : ∀ w, IsWalk tbl root w target →
      ((("" : String), (0 : Nat)) :: w) ∈ find_subpanel tbl root target (rank root + 1) := by
    intro w hw
    have hlvl : (target, [(("" : String), (0 : Nat))] ++ w) ∈ cteLevel tbl root (0 + w.length) :=
      cte_walk_mem hw (cte_seed tbl root)
    rw [Nat.zero_add] at hlvl
    have hlen : w.length < rank root + 1 := by
      have := rank_walk hr hw
      omega
    simp only [find_subpanel, List.mem_flatMap, List.mem_map, List.mem_filter,
      List.mem_range]
    exact ⟨w.length, hlen, (target, ("", 0) :: w), ⟨by simpa using hlvl, by simp⟩, rfl⟩
  refine ⟨main, fun hroot => ?_⟩
  subst hroot
  simpa using main [] (IsWalk.nil root)

/-- Witness for c5_path_completeness: "X" is referenced from the two distinct
(parent, slot) pairs ("R","s") and ("M","u"), both reachable from "R";
both corresponding paths are returned. -/
theorem c5_witness :
    ((("" : String), (0 : Nat)) :: [("s", 0)]) ∈
      find_subpanel [⟨"R", "s", 0, "X"⟩, ⟨"R", "t", 1, "M"⟩, ⟨"M", "u", 0, "X"⟩]
        "R" "X"
        ((fun x : String => if x = "X" then 0 else if x = "M" then 1 else 2) "R" + 1) ∧
    ((("" : String), (0 : Nat)) :: [("t", 1), ("u", 0)]) ∈
      find_subpanel [⟨"R", "s", 0, "X"⟩, ⟨"R", "t", 1, "M"⟩, ⟨"M", "u", 0, "X"⟩]
        "R" "X"
        ((fun x : String => if x = "X" then 0 else if x = "M" then 1 else 2) "R" + 1) := by
  have h := c5_path_completeness [⟨"R", "s", 0, "X"⟩, ⟨"R", "t", 1, "M"⟩, ⟨"M", "u", 0, "X"⟩]
    "R" "X" (fun x : String => if x = "X" then 0 else if x = "M" then 1 else 2)
    (by decide)
  have e1 : IsWalk [⟨"R", "s", 0, "X"⟩, ⟨"R", "t", 1, "M"⟩, ⟨"M", "u", 0, "X"⟩]
      "R" [("s", 0)] "X" :=
    IsWalk.cons ⟨"R", "s", 0, "X"⟩ (by decide) _ _ (IsWalk.nil "X")
  have e2 : IsWalk [⟨"R", "s", 0, "X"⟩, ⟨"R", "t", 1, "M"⟩, ⟨"M", "u", 0, "X"⟩]
      "R" [("t", 1), ("u", 0)] "X" :=
    IsWalk.cons ⟨"R", "t", 1, "M"⟩ (by decide) _ _
      (IsWalk.cons ⟨"M", "u", 0, "X"⟩ (by decide) _ _ (IsWalk.nil "X"))
  exact ⟨h.1 _ e1, h.1 _ e2⟩

/-! ## C6: the untouched head of the list reconciler -/

theorem fui_none (slot_name : String) (d : SlotDict) :
    ∀ (n i : Nat), ListContainer.firstUpdateIdx slot_name d i n = none →
      ∀ j, j < n → containsKey d (slot_name, i + j) = false := by
  intro n
  induction n with
  | zero => intro i _ j hj; omega
  | succ n ih =>
    intro i h j hj
    simp only [ListContainer.firstUpdateIdx] at h
    cases hc : containsKey d (slot_name, i) with
    | true => simp [hc] at h
    | false =>
      simp only [hc, Bool.false_eq_true, if_false] at h
      cases j with
      | zero => simpa using hc
      | succ j1 =>
        have harith : i + (j1 + 1) = (i + 1) + j1 := by omega
        rw [harith]
        exact ih (i + 1) h j1 (by omega)

theorem fui_some (slot_name : String) (d : SlotDict) :
    ∀ (n i p : Nat), ListContainer.firstUpdateIdx slot_name d i n = some p →
      i ≤ p ∧ p < i + n ∧ containsKey d (slot_name, p) = true ∧
        ∀ j, i ≤ j → j < p → containsKey d (slot_name, j) = false := by
  intro n
  induction n with
  | zero => intro i p h; simp [ListContainer.firstUpdateIdx] at h
  | succ n ih =>
    intro i p h
    simp only [ListContainer.firstUpdateIdx] at h
    cases hc : containsKey d (slot_name, i) with
    | true =>
      simp only [hc, if_true] at h
      obtain rfl : i = p := by simpa using h
      exact ⟨le_refl _, by omega, hc, fun j hj1 hj2 => by omega⟩
    | false =>
      simp only [hc, Bool.false_eq_true, if_false] at h
      obtain ⟨h1, h2, h3, h4⟩ := ih (i + 1) p h
      refine ⟨by omega, by omega, h3, ?_⟩
      intro j hj1 hj2
      rcases Nat.eq_or_lt_of_le hj1 with rfl | hlt
      · exact hc
      · exact h4 j (by omega) hj2

theorem qtInsert_length {α : Type} (a : α) (n : Nat) (l : List α) :
    (ListContainer.qtInsert n a l).length = l.length + 1 := by
  simp only [ListContainer.qtInsert, List.length_append, List.length_take,
    List.length_cons, List.length_drop]
  omega

theorem qtInsert_take {α : Type} (a : α) {m n : Nat} {l : List α} (h1 : m ≤ n)
    (h2 : m ≤ l.length) : (ListContainer.qtInsert n a l).take m = l.take m := by
  rw [ListContainer.qtInsert, List.take_append_eq_append_take]
  have hm : m - (l.take n).length = 0 := by
    rw [List.length_take]
    omega
  rw [hm, List.take_zero, List.append_nil, List.take_take]
  congr 1
  omega

theorem lcLoop_take (slot_name : String) (d : SlotDict) (removed_order : List Inst)
    (insert_idx : Nat) :
    ∀ (fuel : Nat) (unaddressed : List (String × Nat)) (existing : List (String × Inst))
      (layout : List Inst) (new_idx counter : Nat) (res : List Inst) (c2 : Nat),
      insert_idx ≤ new_idx → insert_idx ≤ layout.length →
      ListContainer.lcLoop slot_name d removed_order insert_idx fuel unaddressed existing
        layout new_idx counter = .ok (res, c2) →
      res.take insert_idx = layout.take insert_idx := by
  intro fuel
  induction fuel with
  | zero =>
    intro unaddressed existing layout new_idx counter res c2 _ _ hok
    simp only [ListContainer.lcLoop] at hok
    split at hok
    · simp only [Except.ok.injEq, Prod.mk.injEq] at hok
      rw [hok.1]
    · cases hok
  | succ fuel ih =>
    intro unaddressed existing layout new_idx counter res c2 h1 h2 hok
    simp only [ListContainer.lcLoop] at hok
    split at hok
    · simp only [Except.ok.injEq, Prod.mk.injEq] at hok
      rw [hok.1]
    · split at hok
      · -- tombstone: layout unchanged
        exact ih _ _ _ _ _ _ _ (by omega) h2 hok
      · split at hok
        · -- reuse of a detached widget
          have := ih _ _ _ _ _ _ _ (by omega)
            (by rw [qtInsert_length]; omega) hok
          rwa [qtInsert_take _ h1 h2] at this
        · -- materialize a new widget
          have := ih _ _ _ _ _ _ _ (by omega)
            (by rw [qtInsert_length]; omega) hok
          rwa [qtInsert_take _ h1 h2] at this
      · split at hok
        · -- reinsert the next detached widget
          have := ih _ _ _ _ _ _ _ (by omega)
            (by rw [qtInsert_length]; omega) hok
          rwa [qtInsert_take _ h1 h2] at this
        · cases hok

/-- C6: the longest head of the live sequence whose indices carry no
key in the incoming map (for this container's slot name) is left
completely untouched: the removal pass detaches exactly the entries
from the first disturbed index p on, and every position below p of the
resulting layout still holds the original instance.  p is the pivot
(the first updated index, defaulting to the sequence length). -/
theorem c6_untouched_head (slot_name : String) (d : SlotDict) (layout : List Inst)
    (counter p : Nat)
    (hp : (ListContainer.firstUpdateIdx slot_name d 0 layout.length).getD layout.length = p) :
    p ≤ layout.length ∧
    (∀ i, i < p → containsKey d (slot_name, i) = false) ∧
    ListContainer.splitAtPivot slot_name d layout = (layout.take p, layout.drop p, p) ∧
    (∀ res c2, ListContainer.update_from slot_name d layout counter = .ok (res, c2) →
      res.take p = layout.take p) := by
  cases hf : ListContainer.firstUpdateIdx slot_name d 0 layout.length with
  | none =>
    rw [hf] at hp
    simp only [Option.getD] at hp
    subst hp
    have hsplit : ListContainer.splitAtPivot slot_name d layout =
        (layout.take layout.length, layout.drop layout.length, layout.length) := by
      simp [ListContainer.splitAtPivot, hf]
    refine ⟨le_refl _, ?_, hsplit, ?_⟩
    · intro i hi
      have := fui_none slot_name d layout.length 0 hf i hi
      simpa using this
    · intro res c2 hok
      simp only [ListContainer.update_from, hsplit] at hok
      have := lcLoop_take slot_name d (layout.drop layout.length) layout.length _ _ _ _ _ _
        res c2 (le_refl _) (by simp) hok
      simpa using this
  | some q =>
    rw [hf] at hp
    simp only [Option.getD] at hp
    subst hp
    obtain ⟨_, hqlt, _, hpref⟩ := fui_some slot_name d layout.length 0 q hf
    have hqle : q ≤ layout.length := by omega
    have hsplit : ListContainer.splitAtPivot slot_name d layout =
        (layout.take q, layout.drop q, q) := by
      simp [ListContainer.splitAtPivot, hf]
    refine ⟨hqle, fun i hi => hpref i (by omega) hi, hsplit, ?_⟩
    intro res c2 hok
    simp only [ListContainer.update_from, hsplit] at hok
    have htake : res.take q = (layout.take q).take q :=
      lcLoop_take slot_name d (layout.drop q) q _ _ _ _ _ _ res c2 (le_refl _)
        (by rw [List.length_take]; omega) hok
    rwa [List.take_take, Nat.min_self] at htake

/-- Witness for c6_untouched_head: diff {("s",1): "z"} on the sequence
["a","b"]; the pivot is 1, the head instance is untouched. -/
theorem c6_witness :
    (1 : Nat) ≤ ([⟨"a", 0⟩, ⟨"b", 1⟩] : List Inst).length ∧
    (∀ i, i < 1 → containsKey [((("s", 1) : String × Nat), some "z")] ("s", i) = false) ∧
    ListContainer.splitAtPivot "s" [(("s", 1), some "z")] [⟨"a", 0⟩, ⟨"b", 1⟩] =
      (([⟨"a", 0⟩, ⟨"b", 1⟩] : List Inst).take 1, ([⟨"a", 0⟩, ⟨"b", 1⟩] : List Inst).drop 1, 1) ∧
    (∀ res c2,
      ListContainer.update_from "s" [(("s", 1), some "z")] [⟨"a", 0⟩, ⟨"b", 1⟩] 50 =
        .ok (res, c2) → res.take 1 = ([⟨"a", 0⟩, ⟨"b", 1⟩] : List Inst).take 1) :=
  c6_untouched_head "s" [(("s", 1), some "z")] [⟨"a", 0⟩, ⟨"b", 1⟩] 50 1 rfl

/-! ## C8, C9, C10 -/

/-- C8: as stated, attributes(id) and slots(id) would return an empty
mapping for a type with no attributes / a panel with no slot rows.
Refuted: get_attributes_dict returns None when the type declares no
attributes, and get_slots_dict returns None when the Slots table has
no row for the panel — an absent result, not an empty mapping. -/
theorem c8_counterexample :
    WindowManager.get_attributes_dict [] [("panelid", "p")] = none ∧
    WindowManager.get_attributes_dict [] [("panelid", "p")] ≠ some [] ∧
    WindowManager.get_slots_dict [((("q", "s", 0) : SlotKey), "r")] "p" = none ∧
    WindowManager.get_slots_dict [((("q", "s", 0) : SlotKey), "r")] "p" ≠ some [] := by
  exact ⟨rfl, by decide, rfl, by decide⟩

/-- C8 (amended): for an existing panel whose type declares no
attributes get_attributes_dict returns None rather than an empty
mapping, and for an existing panel with no slot edges get_slots_dict
returns None; the callers (init_from_dicts, update_panel) treat None
as nothing-to-apply. -/
theorem c8_amended_none (declared : List (String × String))
    (row : List (String × String)) (tbl : List (SlotKey × String)) (pid : String)
    (h1 : declared = []) (h2 : ∀ r ∈ tbl, r.1.1 ≠ pid) :
    WindowManager.get_attributes_dict declared row = none ∧
    WindowManager.get_slots_dict tbl pid = none := by
  subst h1
  refine ⟨rfl, ?_⟩
  have hfil : tbl.filter (fun r => r.1.1 == pid) = [] := by
    rw [List.filter_eq_nil_iff]
    intro r hr
    simpa using h2 r hr
  simp [WindowManager.get_slots_dict, hfil]

/-- Witness for c8_amended_none at concrete inputs. -/
theorem c8_amended_witness :
    WindowManager.get_attributes_dict [] [("x", "1")] = none ∧
    WindowManager.get_slots_dict [((("q", "s", 0) : SlotKey), "r")] "p" = none :=
  c8_amended_none [] [("x", "1")] [((("q", "s", 0) : SlotKey), "r")] "p" rfl
    (by decide)

/-- C9: when the incoming map tombstones key (slot_name, 0) while the
single container holds no occupant, the removal branch dereferences
the absent occupant (get_panel_widget returns None and the code calls
wid.setParent on it) and raises an unhandled AttributeError instead of
being a no-op; with an occupant present the same tombstone is a clean
removal, so the branch is only safe under that unstated
precondition. -/
theorem c9_single_tombstone (slot_name : String) (d : SlotDict) (counter : Nat)
    (h : lookupKey d (slot_name, 0) = some none) :
    SingleContainer.update_from slot_name d none counter = .error "AttributeError" ∧
    ∀ w : Inst, SingleContainer.update_from slot_name d (some w) counter =
      .ok (none, counter) := by
  constructor
  · simp [SingleContainer.update_from, h]
  · intro w
    simp [SingleContainer.update_from, h]

/-- Witness for c9_single_tombstone on the concrete tombstone dict. -/
theorem c9_witness :
    SingleContainer.update_from "s" [(("s", 0), none)] none 0 = .error "AttributeError" :=
  (c9_single_tombstone "s" [(("s", 0), none)] 0 rfl).1

theorem winop_inv (windows : WindowManager.Registry) (op : WindowManager.WinOp)
    (h : ∀ q ∈ windows, q.2 ≠ ([] : List Inst)) :
    ∀ q ∈ WindowManager.applyWinOp windows op, q.2 ≠ [] := by
  cases op with
  | create n w =>
    simp only [WindowManager.applyWinOp, WindowManager.create_window]
    split
    · intro q hq
      simp only [List.mem_map] at hq
      obtain ⟨r, hr, rfl⟩ := hq
      by_cases hrn : r.1 = n
      · rw [if_pos hrn]
        split
        · exact h r hr
        · simp
      · rw [if_neg hrn]
        exact h r hr
    · intro q hq
      rcases List.mem_append.1 hq with hl | hr2
      · exact h q hl
      · simp only [List.mem_singleton] at hr2
        subst hr2
        simp
  | close n w =>
    simp only [WindowManager.applyWinOp, WindowManager.window_closed]
    split
    · exact h
    · rename_i s1 _
      split
      · split
        · intro q hq
          exact h q (List.mem_of_mem_filter hq)
        · rename_i hne
          intro q hq
          rcases mem_setVal hq with rfl | ⟨hql, _⟩
          · exact fun hnil => hne (by rw [show s1.erase w = [] from hnil]; rfl)
          · exact h q hql
      · exact h

/-- C10: starting from init_manager's empty dict, no sequence of
create_window / window_closed operations ever leaves an id mapped to
an empty set: create_window always adds the new widget under its id,
and window_closed deletes the id's entry when its set empties. -/
theorem c10_registry_nonempty (ops : List WindowManager.WinOp) (name : String) (s : List Inst)
    (hl : lookupKey (WindowManager.runWinOps ops) name = some s) : s ≠ [] := by
  have hinv : ∀ (ops1 : List WindowManager.WinOp) (reg : WindowManager.Registry),
      (∀ q ∈ reg, q.2 ≠ ([] : List Inst)) →
      ∀ q ∈ ops1.foldl WindowManager.applyWinOp reg, q.2 ≠ [] := by
    intro ops1
    induction ops1 with
    | nil => intro reg h; exact h
    | cons op rest ih =>
      intro reg h
      exact ih _ (winop_inv reg op h)
  unfold lookupKey at hl
  cases hf : (WindowManager.runWinOps ops).find? (fun p => p.1 == name) with
  | none => rw [hf] at hl; cases hl
  | some q =>
    rw [hf] at hl
    simp at hl
    have hmem := List.mem_of_find?_eq_some hf
    have hne := hinv ops [] (by simp) q hmem
    exact hl ▸ hne

/-- Witness for c10_registry_nonempty: after one create_window the id "a" maps
to a one-element set. -/
theorem c10_witness : ([⟨"a", 0⟩] : List Inst) ≠ [] :=
  c10_registry_nonempty [WindowManager.WinOp.create "a" ⟨"a", 0⟩] "a" [⟨"a", 0⟩] rfl
